import Mathlib

/-!
Verification of the `g2p` finite-field construction crate.

The crate is a proc-macro that, given a degree `p`, an (optional) modulus
polynomial and an (optional) generator, builds discrete exp/log tables and
emits add/sub/mul/div implementations over GF(2^p).

Binary-polynomial arithmetic (`G2Poly`) lives in the companion `g2poly`
crate whose sources are not part of this tree; those operations are
modelled from the specification (degree, XOR addition, carry-less
multiplication, polynomial remainder, irreducibility by trial division,
generator test by multiplicative order).  Everything else (`find_modulus_poly`,
`find_generator`, `Settings::from_input`, `generate_log_tables`, and the
generated arithmetic `impl`s) is translated directly from `src/lib.rs`.

Field elements and polynomials are represented by `Nat` bit-vectors, the
same encoding the code uses (`bit i` is the coefficient of `x^i`).
Recursive functions use an explicit fuel argument so that every definition
is structurally recursive and kernel-reducible.
-/

namespace G2p

/-- Modelled from the spec (g2poly): fuel-driven computation of the index of
the highest set bit.  `degFuel fuel n` equals `log2 n` whenever `n ≤ fuel`. -/
def degFuel : Nat → Nat → Nat
  | 0, _ => 0
  | fuel + 1, n => if 2 ≤ n then degFuel fuel (n / 2) + 1 else 0

/-- Modelled from the spec (g2poly): position of the highest set bit of a
nonzero polynomial encoding. -/
def polyDeg (n : Nat) : Nat := degFuel n n

/-- Modelled from the spec (g2poly): `degree`, the highest set bit index,
`none` for the zero polynomial. -/
def degree (n : Nat) : Option Nat := if n = 0 then none else some (polyDeg n)

/-- Modelled from the spec (g2poly): carry-less (GF(2)[x]) multiplication,
fuel-driven: for each set bit `i` of `b`, XOR `a <<< i` into the result. -/
def polyMulFuel : Nat → Nat → Nat → Nat
  | 0, _, _ => 0
  | fuel + 1, a, b =>
    if b = 0 then 0
    else (if b % 2 = 1 then a else 0) ^^^ polyMulFuel fuel (2 * a) (b / 2)

/-- Modelled from the spec (g2poly): carry-less multiplication of two
binary polynomials. -/
def polyMul (a b : Nat) : Nat := polyMulFuel b a b

/-- Modelled from the spec (g2poly): polynomial long-division remainder,
fuel-driven: while `degree a ≥ degree m`, XOR `a` with `m` shifted left by
the degree difference. -/
def polyModFuel : Nat → Nat → Nat → Nat
  | 0, a, _ => a
  | fuel + 1, a, m =>
    if a = 0 then a
    else if m = 0 then a
    else if polyDeg a < polyDeg m then a
    else polyModFuel fuel (a ^^^ (m * 2 ^ (polyDeg a - polyDeg m))) m

/-- Modelled from the spec (g2poly): polynomial remainder `a mod m`. -/
def polyMod (a m : Nat) : Nat := polyModFuel a a m

/-- One multiply-then-reduce step `x ↦ (x * g) mod m`, the loop body used
both by the generator test and by `generate_log_tables`. -/
def mulModStep (g m x : Nat) : Nat := polyMod (polyMul x g) m

/-- Modelled from the spec (g2poly): `g^k mod m` by repeated multiply-mod
starting from the identity polynomial `1`. -/
def gpow (g m : Nat) : Nat → Nat
  | 0 => 1
  | k + 1 => mulModStep g m (gpow g m k)

/-- Modelled from the spec (g2poly): brute-force irreducibility test, trial
division by every polynomial of degree `1 .. d/2`; the zero polynomial and
degree-0 polynomials are not irreducible. -/
def is_irreducible (m : Nat) : Bool :=
  match degree m with
  | none => false
  | some d =>
    if d = 0 then false
    else (List.range (2 ^ (d / 2 + 1))).all fun f => decide (f < 2) || polyMod m f != 0

/-- Modelled from the spec (g2poly): `g` generates the multiplicative group
of GF(2)[x]/(m) iff its multiplicative order is exactly `2^d - 1` where
`d = degree m`; checked by repeated multiply-mod. -/
def is_generator (g m : Nat) : Bool :=
  match degree m with
  | none => false
  | some d =>
    let n := 2 ^ d - 1
    ((List.range n).all fun k => k == 0 || gpow g m k != 1) && (gpow g m n == 1)

/-- Translated from `find_modulus_poly` in `src/lib.rs`: scan the integers
`2^p + 1 ..= 2^(p+1) - 1` and return the first irreducible one; `none`
models the `unreachable!` exhaustion path. -/
def find_modulus_poly (p : Nat) : Option Nat :=
  (List.range' (2 ^ p + 1) (2 ^ p - 1)).find? fun m => is_irreducible m

/-- Translated from `find_generator` in `src/lib.rs`: scan `1 .. (2 << max)`
for the first generator; `none` models the panics (`expect` on a
degree-less modulus, `unreachable!` exhaustion). -/
def find_generator (m : Nat) : Option Nat :=
  match degree m with
  | none => none
  | some d => (List.range' 1 (2 * 2 ^ d - 1)).find? fun g => is_generator g m

/-- Outcome of `Settings::from_input`: a validated (modulus, generator)
pair, one of the two validation errors, or a panic in the search helpers. -/
inductive SettingsOutcome where
  | ok (modulus generator : Nat)
  | modulusNotIrreducible
  | notGenerator
  | searchExhausted
deriving DecidableEq, Repr

/-- Translated from `Settings::from_input` in `src/lib.rs`: take the
explicit modulus or search for one, reject it if not irreducible, then take
the explicit generator or search for one, and reject it if it is not a
generator. -/
def from_input (p : Nat) (omod ogen : Option Nat) : SettingsOutcome :=
  let mRes : Option Nat :=
    match omod with
    | some m => some m
    | none => find_modulus_poly p
  match mRes with
  | none => .searchExhausted
  | some m =>
    if !is_irreducible m then .modulusNotIrreducible
    else
      let gRes : Option Nat :=
        match ogen with
        | some g => some g
        | none => find_generator m
      match gRes with
      | none => .searchExhausted
      | some g =>
        if !is_generator g m then .notGenerator
        else .ok m g

/-- Translated from the loop of `generate_log_tables` in `src/lib.rs`:
for each index `i`, push the running power onto `exp_table`, store `i` at
slot `cur_pow` of `log_table`, then advance `cur_pow` by one multiply-mod. -/
def tablesGo (g m : Nat) : List Nat → Nat × List Nat × List Nat → Nat × List Nat × List Nat
  | [], st => st
  | i :: rest, st =>
    tablesGo g m rest (mulModStep g m st.1, st.2.1 ++ [st.1], st.2.2.set st.1 i)

/-- Translated from `generate_log_tables` in `src/lib.rs`: assert the
modulus irreducible and the generator primitive (`none` models an assert
failure or the `expect` on `degree`), then run the table-building loop for
indices `0 ..= 2^deg - 1` starting from `cur_pow = 1`. -/
def generate_log_tables (g m : Nat) : Option (List Nat × List Nat) :=
  if is_irreducible m && is_generator g m then
    match degree m with
    | none => none
    | some d =>
      let n := 2 ^ d - 1
      let res := tablesGo g m (List.range (n + 1)) (1, [], List.replicate (n + 1) 0)
      some (res.2.1, res.2.2)
  else none

/-- Size of the wider accumulator type used by the generated `mul`/`div`:
`u16` for `p ≤ 8`, `u32` for `9 ≤ p ≤ 16` (translated from the `ari_ty`
selection in `src/lib.rs`). -/
def ariBound (p : Nat) : Nat := if p ≤ 8 then 2 ^ 16 else 2 ^ 32

/-- Runtime failure conditions of the generated arithmetic: the explicit
division-by-zero panic, a table index out of bounds, and overflow or
underflow of the accumulator arithmetic. -/
inductive OpError where
  | divByZero
  | indexOutOfBounds
  | overflow
  | underflow
deriving DecidableEq, Repr

/-- Result of one generated arithmetic operation: a value, or a panic. -/
inductive OpResult where
  | ok (v : Nat)
  | err (e : OpError)
deriving DecidableEq, Repr

/-- Translated from the generated `Add` impl in `src/lib.rs`: bitwise XOR. -/
def fadd (a b : Nat) : Nat := a ^^^ b

/-- Translated from the generated `Sub` impl in `src/lib.rs`: bitwise XOR. -/
def fsub (a b : Nat) : Nat := a ^^^ b

/-- Translated from the generated `From<ty>` impl in `src/lib.rs`:
conversion into the field masks to the low `p` bits. -/
def ofRaw (p v : Nat) : Nat := v &&& (2 ^ p - 1)

/-- Translated from the generated `Mul` impl in `src/lib.rs`: zero check,
two `LOG_TABLE` lookups, exponent addition in the accumulator type, one
conditional subtraction of `2^p - 1`, and an `EXP_TABLE` lookup. -/
def fmul (p : Nat) (exp log : List Nat) (a b : Nat) : OpResult :=
  if a = 0 || b = 0 then .ok 0
  else
    match log[a]?, log[b]? with
    | some i, some j =>
      if ariBound p ≤ i + j then .err .overflow
      else
        let c := i + j
        let c2 := if c > 2 ^ p - 1 then c - (2 ^ p - 1) else c
        match exp[c2]? with
        | some v => .ok v
        | none => .err .indexOutOfBounds
    | _, _ => .err .indexOutOfBounds

/-- Translated from the generated `Div` impl in `src/lib.rs`: explicit
division-by-zero panic, two `LOG_TABLE` lookups (note: no special case for
a zero dividend), `c = (2^p - 1) + log a - log b` in the accumulator type,
one conditional subtraction of `2^p - 1`, and an `EXP_TABLE` lookup. -/
def fdiv (p : Nat) (exp log : List Nat) (a b : Nat) : OpResult :=
  if b = 0 then .err .divByZero
  else
    match log[a]?, log[b]? with
    | some i, some j =>
      if ariBound p ≤ (2 ^ p - 1) + i then .err .overflow
      else if (2 ^ p - 1) + i < j then .err .underflow
      else
        let c := (2 ^ p - 1) + i - j
        let c2 := if c > 2 ^ p - 1 then c - (2 ^ p - 1) else c
        match exp[c2]? with
        | some v => .ok v
        | none => .err .indexOutOfBounds
    | _, _ => .err .indexOutOfBounds

/-- Pointwise description of the writes the table loop performs on one slot
`e` of the log table: the last index `i` of the loop with `gpow g m i = e`
wins, and the accumulator `v` survives when no write hits the slot. -/
def logFoldAux (g m e : Nat) (idxs : List Nat) (v : Nat) : Nat :=
  idxs.foldl (fun acc i => if gpow g m i = e then i else acc) v

/-- The exp table the code generates for the worked GF16 example
(`p = 4`, modulus `0b10011`, generator `0b10`). -/
def gf16Exp : List Nat := [1, 2, 4, 8, 3, 6, 12, 11, 5, 10, 7, 14, 15, 13, 9, 1]

/-- The log table the code generates for the worked GF16 example. -/
def gf16Log : List Nat := [0, 15, 1, 4, 2, 8, 5, 10, 3, 14, 9, 7, 6, 13, 11, 12]

/-- Proof-side interpretation of a bit-vector as a polynomial over GF(2),
least-significant bit first; used to relate the trial-division
irreducibility test to Mathlib's `Irreducible`. -/
noncomputable def decode (n : Nat) : Polynomial (ZMod 2) :=
  if h : n = 0 then 0
  else Polynomial.C ((n % 2 : Nat) : ZMod 2) + Polynomial.X * decode (n / 2)
termination_by n
decreasing_by exact Nat.div_lt_self (Nat.pos_of_ne_zero h) (by omega)

/-! ### Basic facts about the bit-level polynomial degree -/

theorem degFuel_zero_arg (f : Nat) : degFuel f 0 = 0 := by
  cases f <;> simp [degFuel]

theorem degFuel_congr : ∀ f1 f2 n : Nat, n ≤ f1 → n ≤ f2 → degFuel f1 n = degFuel f2 n := by
  intro f1
  induction f1 with
  | zero =>
    intro f2 n h1 _
    have hn : n = 0 := by omega
    subst hn
    rw [degFuel_zero_arg, degFuel_zero_arg]
  | succ f ih =>
    intro f2 n h1 h2
    cases n with
    | zero => rw [degFuel_zero_arg, degFuel_zero_arg]
    | succ n' =>
      cases f2 with
      | zero => omega
      | succ f2' =>
        simp only [degFuel]
        by_cases h : 2 ≤ n' + 1
        · rw [if_pos h, if_pos h]
          have := ih f2' ((n' + 1) / 2) (by omega) (by omega)
          omega
        · rw [if_neg h, if_neg h]

theorem polyDeg_eq_succ (n : Nat) (h : 2 ≤ n) : polyDeg n = polyDeg (n / 2) + 1 := by
  unfold polyDeg
  obtain ⟨k, rfl⟩ : ∃ k, n = k + 1 := ⟨n - 1, by omega⟩
  simp only [degFuel, if_pos h]
  have := degFuel_congr k ((k + 1) / 2) ((k + 1) / 2) (by omega) (le_refl _)
  omega

theorem two_pow_polyDeg_le (n : Nat) (h : 1 ≤ n) : 2 ^ polyDeg n ≤ n := by
  induction n using Nat.strong_induction_on with
  | _ n ih =>
    by_cases h2 : 2 ≤ n
    · rw [polyDeg_eq_succ n h2, pow_succ]
      have := ih (n / 2) (by omega) (by omega)
      omega
    · have hn : n = 1 := by omega
      subst hn
      decide

theorem lt_two_pow_polyDeg_succ (n : Nat) : n < 2 ^ (polyDeg n + 1) := by
  induction n using Nat.strong_induction_on with
  | _ n ih =>
    by_cases h2 : 2 ≤ n
    · rw [polyDeg_eq_succ n h2, pow_succ, pow_succ]
      have := ih (n / 2) (by omega)
      rw [pow_succ] at this
      omega
    · have hn : n = 0 ∨ n = 1 := by omega
      rcases hn with hn | hn <;> subst hn <;> decide

theorem polyDeg_unique {n k : Nat} (h1 : 2 ^ k ≤ n) (h2 : n < 2 ^ (k + 1)) :
    polyDeg n = k := by
  have hn : 1 ≤ n := le_trans (Nat.one_le_two_pow) h1
  have a := two_pow_polyDeg_le n hn
  have b := lt_two_pow_polyDeg_succ n
  have h3 := (Nat.pow_lt_pow_iff_right (a := 2) (by omega)).mp (lt_of_le_of_lt a h2)
  have h4 := (Nat.pow_lt_pow_iff_right (a := 2) (by omega)).mp (lt_of_le_of_lt h1 b)
  omega

theorem testBit_true_of_bounds {k a : Nat} (h1 : 2 ^ k ≤ a) (h2 : a < 2 ^ (k + 1)) :
    a.testBit k = true := by
  rw [Nat.testBit_to_div_mod]
  have hpos : 0 < 2 ^ k := Nat.pow_pos (by omega)
  have hone : 1 ≤ a / 2 ^ k := (Nat.le_div_iff_mul_le hpos).mpr (by omega)
  have hlt : a / 2 ^ k < 2 := (Nat.div_lt_iff_lt_mul hpos).mpr (by rw [pow_succ] at h2; omega)
  have : a / 2 ^ k = 1 := by omega
  rw [this]
  decide

theorem xor_lt_of_top_eq {k a b : Nat} (ha1 : 2 ^ k ≤ a) (ha2 : a < 2 ^ (k + 1))
    (hb1 : 2 ^ k ≤ b) (hb2 : b < 2 ^ (k + 1)) : a ^^^ b < 2 ^ k := by
  apply Nat.lt_pow_two_of_testBit
  intro i hi
  rw [Nat.testBit_xor]
  rcases Nat.eq_or_lt_of_le hi with rfl | hlt
  · rw [testBit_true_of_bounds ha1 ha2, testBit_true_of_bounds hb1 hb2]
    rfl
  · have hma : a < 2 ^ i := lt_of_lt_of_le ha2 (Nat.pow_le_pow_right (by omega) (by omega))
    have hmb : b < 2 ^ i := lt_of_lt_of_le hb2 (Nat.pow_le_pow_right (by omega) (by omega))
    rw [Nat.testBit_lt_two_pow hma, Nat.testBit_lt_two_pow hmb]
    rfl

theorem reduce_step_lt {a m : Nat} (ha : a ≠ 0) (hm : m ≠ 0)
    (hle : polyDeg m ≤ polyDeg a) :
    a ^^^ m * 2 ^ (polyDeg a - polyDeg m) < 2 ^ polyDeg a := by
  have hb1 : 2 ^ polyDeg a ≤ m * 2 ^ (polyDeg a - polyDeg m) := by
    calc 2 ^ polyDeg a = 2 ^ polyDeg m * 2 ^ (polyDeg a - polyDeg m) := by
          rw [← pow_add]
          congr 1
          omega
      _ ≤ m * 2 ^ (polyDeg a - polyDeg m) :=
          Nat.mul_le_mul_right _ (two_pow_polyDeg_le m (by omega))
  have hb2 : m * 2 ^ (polyDeg a - polyDeg m) < 2 ^ (polyDeg a + 1) := by
    calc m * 2 ^ (polyDeg a - polyDeg m)
        < 2 ^ (polyDeg m + 1) * 2 ^ (polyDeg a - polyDeg m) :=
          (Nat.mul_lt_mul_right (Nat.pow_pos (by omega))).mpr (lt_two_pow_polyDeg_succ m)
      _ = 2 ^ (polyDeg a + 1) := by
          rw [← pow_add]
          congr 1
          omega
  exact xor_lt_of_top_eq (two_pow_polyDeg_le a (by omega)) (lt_two_pow_polyDeg_succ a) hb1 hb2

/-! ### Unfolding equations and bounds for `polyMod` and `polyMul` -/

theorem polyModFuel_zero_arg (f m : Nat) : polyModFuel f 0 m = 0 := by
  cases f <;> simp [polyModFuel]

theorem polyModFuel_congr : ∀ f1 f2 a m : Nat, a ≤ f1 → a ≤ f2 →
    polyModFuel f1 a m = polyModFuel f2 a m := by
  intro f1
  induction f1 with
  | zero =>
    intro f2 a m h1 _
    have ha : a = 0 := by omega
    subst ha
    rw [polyModFuel_zero_arg, polyModFuel_zero_arg]
  | succ f ih =>
    intro f2 a m h1 h2
    by_cases ha : a = 0
    · subst ha
      rw [polyModFuel_zero_arg, polyModFuel_zero_arg]
    cases f2 with
    | zero => omega
    | succ f2' =>
      simp only [polyModFuel]
      by_cases hm : m = 0
      · simp [ha, hm]
      by_cases hd : polyDeg a < polyDeg m
      · simp [ha, hm, hd]
      · rw [if_neg ha, if_neg ha, if_neg hm, if_neg hm, if_neg hd, if_neg hd]
        have hlt : a ^^^ m * 2 ^ (polyDeg a - polyDeg m) < a :=
          lt_of_lt_of_le (reduce_step_lt ha hm (by omega)) (two_pow_polyDeg_le a (by omega))
        exact ih f2' _ m (by omega) (by omega)

theorem polyMod_eq (a m : Nat) : polyMod a m =
    if a = 0 then a
    else if m = 0 then a
    else if polyDeg a < polyDeg m then a
    else polyMod (a ^^^ m * 2 ^ (polyDeg a - polyDeg m)) m := by
  by_cases ha : a = 0
  · subst ha
    simp [polyMod, polyModFuel_zero_arg]
  obtain ⟨k, rfl⟩ : ∃ k, a = k + 1 := ⟨a - 1, by omega⟩
  show polyModFuel (k + 1) (k + 1) m = _
  simp only [polyModFuel]
  by_cases hm : m = 0
  · simp [hm]
  by_cases hd : polyDeg (k + 1) < polyDeg m
  · simp [hm, hd]
  · rw [if_neg ha, if_neg ha, if_neg hm, if_neg hm, if_neg hd, if_neg hd]
    have hlt : (k + 1) ^^^ m * 2 ^ (polyDeg (k + 1) - polyDeg m) < k + 1 :=
      lt_of_lt_of_le (reduce_step_lt ha hm (by omega)) (two_pow_polyDeg_le _ (by omega))
    exact polyModFuel_congr k _ _ m (by omega) (le_refl _)

theorem polyMod_zero_left (m : Nat) : polyMod 0 m = 0 := by
  rw [polyMod_eq]
  simp

theorem polyMod_lt (a m : Nat) (hm : m ≠ 0) : polyMod a m < 2 ^ polyDeg m := by
  induction a using Nat.strong_induction_on with
  | _ a ih =>
    rw [polyMod_eq]
    by_cases ha : a = 0
    · rw [if_pos ha, ha]
      exact Nat.pow_pos (by omega)
    rw [if_neg ha, if_neg hm]
    by_cases hd : polyDeg a < polyDeg m
    · rw [if_pos hd]
      exact lt_of_lt_of_le (lt_two_pow_polyDeg_succ a) (Nat.pow_le_pow_right (by omega) (by omega))
    · rw [if_neg hd]
      have hlt : a ^^^ m * 2 ^ (polyDeg a - polyDeg m) < a :=
        lt_of_lt_of_le (reduce_step_lt ha hm (by omega)) (two_pow_polyDeg_le a (by omega))
      exact ih _ hlt

theorem polyMulFuel_zero_arg (f a : Nat) : polyMulFuel f a 0 = 0 := by
  cases f <;> simp [polyMulFuel]

theorem polyMulFuel_congr : ∀ f1 f2 a b : Nat, b ≤ f1 → b ≤ f2 →
    polyMulFuel f1 a b = polyMulFuel f2 a b := by
  intro f1
  induction f1 with
  | zero =>
    intro f2 a b h1 _
    have hb : b = 0 := by omega
    subst hb
    rw [polyMulFuel_zero_arg, polyMulFuel_zero_arg]
  | succ f ih =>
    intro f2 a b h1 h2
    by_cases hb : b = 0
    · subst hb
      rw [polyMulFuel_zero_arg, polyMulFuel_zero_arg]
    cases f2 with
    | zero => omega
    | succ f2' =>
      simp only [polyMulFuel, if_neg hb]
      have := ih f2' (2 * a) (b / 2) (by omega) (by omega)
      rw [this]

theorem polyMul_eq (a b : Nat) : polyMul a b =
    if b = 0 then 0
    else (if b % 2 = 1 then a else 0) ^^^ polyMul (2 * a) (b / 2) := by
  by_cases hb : b = 0
  · subst hb
    simp [polyMul, polyMulFuel_zero_arg]
  obtain ⟨k, rfl⟩ : ∃ k, b = k + 1 := ⟨b - 1, by omega⟩
  show polyMulFuel (k + 1) a (k + 1) = _
  simp only [polyMulFuel, if_neg hb]
  have := polyMulFuel_congr k ((k + 1) / 2) (2 * a) ((k + 1) / 2) (by omega) (le_refl _)
  rw [this]
  rfl

theorem polyMul_zero_left (b : Nat) : polyMul 0 b = 0 := by
  induction b using Nat.strong_induction_on with
  | _ b ih =>
    rw [polyMul_eq]
    by_cases hb : b = 0
    · simp [hb]
    · rw [if_neg hb]
      have h2 : (2 : Nat) * 0 = 0 := by omega
      rw [h2, ih (b / 2) (by omega)]
      simp

theorem mulModStep_zero (g m : Nat) : mulModStep g m 0 = 0 := by
  unfold mulModStep
  rw [polyMul_zero_left, polyMod_zero_left]

/-! ### The orbit of the running power `gpow` -/

theorem gpow_congr_add {g m i j : Nat} (h : gpow g m i = gpow g m j) :
    ∀ k, gpow g m (i + k) = gpow g m (j + k) := by
  intro k
  induction k with
  | zero => simpa using h
  | succ k ih =>
    show mulModStep g m (gpow g m (i + k)) = mulModStep g m (gpow g m (j + k))
    rw [ih]

theorem gpow_zero_propagate {g m k : Nat} (h : gpow g m k = 0) :
    ∀ t, gpow g m (k + t) = 0 := by
  intro t
  induction t with
  | zero => simpa using h
  | succ t ih =>
    show mulModStep g m (gpow g m (k + t)) = 0
    rw [ih, mulModStep_zero]

theorem gpow_ne_zero {g m n : Nat} (hn : gpow g m n = 1) {k : Nat} (hk : k ≤ n) :
    gpow g m k ≠ 0 := by
  intro h0
  have h1 := gpow_zero_propagate h0 (n - k)
  rw [show k + (n - k) = n by omega, hn] at h1
  exact one_ne_zero h1

theorem gpow_lt {g m : Nat} (hm : m ≠ 0) (hd : 1 ≤ polyDeg m) (k : Nat) :
    gpow g m k < 2 ^ polyDeg m := by
  cases k with
  | zero =>
    show 1 < 2 ^ polyDeg m
    have := Nat.pow_le_pow_right (show 1 ≤ 2 by omega) hd
    simpa using lt_of_lt_of_le (by omega : (1 : Nat) < 2 ^ 1) this
  | succ k =>
    show polyMod (polyMul (gpow g m k) g) m < 2 ^ polyDeg m
    exact polyMod_lt _ m hm

theorem gpow_inj {g m : Nat}
    (Hlt : ∀ k, 0 < k → k < 2 ^ polyDeg m - 1 → gpow g m k ≠ 1)
    (Hn : gpow g m (2 ^ polyDeg m - 1) = 1) {i j : Nat} (hij : i < j)
    (hj : j ≤ 2 ^ polyDeg m - 1) (heq : gpow g m i = gpow g m j) :
    i = 0 ∧ j = 2 ^ polyDeg m - 1 := by
  have h1 := gpow_congr_add heq (2 ^ polyDeg m - 1 - j)
  rw [show j + (2 ^ polyDeg m - 1 - j) = 2 ^ polyDeg m - 1 by omega, Hn] at h1
  by_cases hz : i + (2 ^ polyDeg m - 1 - j) = 0
  · constructor <;> omega
  · exact absurd h1 (Hlt _ (by omega) (by omega))

theorem gpow_surj {g m : Nat} (hm : m ≠ 0) (hd : 1 ≤ polyDeg m)
    (Hlt : ∀ k, 0 < k → k < 2 ^ polyDeg m - 1 → gpow g m k ≠ 1)
    (Hn : gpow g m (2 ^ polyDeg m - 1) = 1) {e : Nat} (he1 : 0 < e)
    (he2 : e < 2 ^ polyDeg m) :
    ∃ i, i < 2 ^ polyDeg m - 1 ∧ gpow g m i = e := by
  have hinj : Set.InjOn (gpow g m) ↑(Finset.range (2 ^ polyDeg m - 1)) := by
    intro i hi j hj hgij
    simp only [Finset.coe_range, Set.mem_Iio] at hi hj
    rcases lt_trichotomy i j with h | h | h
    · exact absurd (gpow_inj Hlt Hn h (by omega) hgij).2 (by omega)
    · exact h
    · exact absurd (gpow_inj Hlt Hn h (by omega) hgij.symm).2 (by omega)
  have hsub : (Finset.range (2 ^ polyDeg m - 1)).image (gpow g m)
      ⊆ Finset.Ioo 0 (2 ^ polyDeg m) := by
    intro x hx
    simp only [Finset.mem_image, Finset.mem_range] at hx
    obtain ⟨i, _, rfl⟩ := hx
    simp only [Finset.mem_Ioo]
    exact ⟨Nat.pos_of_ne_zero (gpow_ne_zero Hn (by omega)), gpow_lt hm hd i⟩
  have hcard : (Finset.Ioo 0 (2 ^ polyDeg m)).card
      ≤ ((Finset.range (2 ^ polyDeg m - 1)).image (gpow g m)).card := by
    rw [Finset.card_image_of_injOn hinj, Finset.card_range, Nat.card_Ioo]
    omega
  have heqs := Finset.eq_of_subset_of_card_le hsub hcard
  have hmem : e ∈ (Finset.range (2 ^ polyDeg m - 1)).image (gpow g m) := by
    rw [heqs]
    simp only [Finset.mem_Ioo]
    exact ⟨he1, he2⟩
  simp only [Finset.mem_image, Finset.mem_range] at hmem
  obtain ⟨i, hi, hie⟩ := hmem
  exact ⟨i, hi, hie⟩

/-! ### Unpacking the validity checks -/

theorem is_generator_spec {g m : Nat} (h : is_generator g m = true) :
    m ≠ 0 ∧ (∀ k, 0 < k → k < 2 ^ polyDeg m - 1 → gpow g m k ≠ 1) ∧
      gpow g m (2 ^ polyDeg m - 1) = 1 := by
  unfold is_generator at h
  by_cases hm : m = 0
  · rw [degree, if_pos hm] at h
    simp at h
  · rw [degree, if_neg hm] at h
    simp only [Bool.and_eq_true, List.all_eq_true, List.mem_range, Bool.or_eq_true,
      beq_iff_eq, bne_iff_ne, ne_eq] at h
    obtain ⟨h1, h2⟩ := h
    refine ⟨hm, ?_, h2⟩
    intro k hk0 hkn
    rcases h1 k hkn with h | h
    · omega
    · exact h

theorem is_irreducible_ne_zero {m : Nat} (h : is_irreducible m = true) :
    m ≠ 0 ∧ 1 ≤ polyDeg m := by
  unfold is_irreducible at h
  by_cases hm : m = 0
  · rw [degree, if_pos hm] at h
    simp at h
  · rw [degree, if_neg hm] at h
    by_cases hd : polyDeg m = 0
    · simp [hd] at h
    · exact ⟨hm, by omega⟩

/-! ### Characterizing the table-building loop -/

theorem tablesGo_exp (g m : Nat) : ∀ (len k : Nat) (E L : List Nat),
    (tablesGo g m (List.range' k len) (gpow g m k, E, L)).2.1
      = E ++ (List.range' k len).map (gpow g m) := by
  intro len
  induction len with
  | zero =>
    intro k E L
    simp [tablesGo]
  | succ len ih =>
    intro k E L
    rw [List.range'_succ]
    show (tablesGo g m _ (mulModStep g m (gpow g m k), E ++ [gpow g m k],
      L.set (gpow g m k) k)).2.1 = _
    have hstep : mulModStep g m (gpow g m k) = gpow g m (k + 1) := rfl
    rw [hstep, ih (k + 1) (E ++ [gpow g m k]) (L.set (gpow g m k) k)]
    simp

theorem tablesGo_length (g m : Nat) : ∀ (idxs : List Nat) (st : Nat × List Nat × List Nat),
    ((tablesGo g m idxs st).2.2).length = st.2.2.length := by
  intro idxs
  induction idxs with
  | nil => intro st; rfl
  | cons i rest ih =>
    intro st
    show ((tablesGo g m rest (mulModStep g m st.1, st.2.1 ++ [st.1], st.2.2.set st.1 i)).2.2).length = _
    rw [ih]
    simp

theorem tablesGo_log (g m N : Nat) (hN : ∀ i, gpow g m i < N) :
    ∀ (len k : Nat) (E L : List Nat) (e v : Nat), L.length = N → L[e]? = some v →
    ((tablesGo g m (List.range' k len) (gpow g m k, E, L)).2.2)[e]?
      = some (logFoldAux g m e (List.range' k len) v) := by
  intro len
  induction len with
  | zero =>
    intro k E L e v _ hev
    simpa [tablesGo, logFoldAux] using hev
  | succ len ih =>
    intro k E L e v hlen hev
    rw [List.range'_succ]
    show ((tablesGo g m _ (mulModStep g m (gpow g m k), E ++ [gpow g m k],
      L.set (gpow g m k) k)).2.2)[e]? = _
    have hstep : mulModStep g m (gpow g m k) = gpow g m (k + 1) := rfl
    have hlen' : (L.set (gpow g m k) k).length = N := by
      rw [List.length_set]
      exact hlen
    have hev' : (L.set (gpow g m k) k)[e]? = some (if gpow g m k = e then k else v) := by
      rw [List.getElem?_set]
      by_cases hke : gpow g m k = e
      · rw [if_pos hke, if_pos (by rw [hlen]; exact hN k), if_pos hke]
      · rw [if_neg hke, if_neg hke]
        exact hev
    rw [hstep, ih (k + 1) (E ++ [gpow g m k]) (L.set (gpow g m k) k) e _ hlen' hev']
    rfl

theorem logFoldAux_of_not_mem {g m e v : Nat} :
    ∀ idxs : List Nat, (∀ i ∈ idxs, gpow g m i ≠ e) → logFoldAux g m e idxs v = v := by
  intro idxs
  induction idxs generalizing v with
  | nil => intro _; rfl
  | cons i rest ih =>
    intro h
    show logFoldAux g m e rest (if gpow g m i = e then i else v) = v
    rw [if_neg (h i (by simp))]
    exact ih fun t ht => h t (by simp [ht])

theorem logFoldAux_last {g m e v j : Nat} (idxs1 idxs2 : List Nat)
    (hj : gpow g m j = e) (h2 : ∀ i ∈ idxs2, gpow g m i ≠ e) :
    logFoldAux g m e (idxs1 ++ j :: idxs2) v = j := by
  unfold logFoldAux
  rw [List.foldl_append]
  show logFoldAux g m e (j :: idxs2) _ = j
  show logFoldAux g m e idxs2 (if gpow g m j = e then j else _) = j
  rw [if_pos hj]
  exact logFoldAux_of_not_mem idxs2 h2

/-! ### The master description of `generate_log_tables` -/

theorem generate_log_tables_eq {g m : Nat} {exp log : List Nat}
    (h : generate_log_tables g m = some (exp, log)) :
    is_irreducible m = true ∧ is_generator g m = true ∧ m ≠ 0 ∧
    exp = (tablesGo g m (List.range (2 ^ polyDeg m - 1 + 1))
      (1, [], List.replicate (2 ^ polyDeg m - 1 + 1) 0)).2.1 ∧
    log = (tablesGo g m (List.range (2 ^ polyDeg m - 1 + 1))
      (1, [], List.replicate (2 ^ polyDeg m - 1 + 1) 0)).2.2 := by
  unfold generate_log_tables at h
  by_cases h1 : is_irreducible m = true
  case neg =>
    rw [Bool.not_eq_true] at h1
    rw [h1] at h
    simp at h
  by_cases h2 : is_generator g m = true
  case neg =>
    rw [Bool.not_eq_true] at h2
    rw [h2] at h
    simp at h
  rw [h1, h2] at h
  have hm : m ≠ 0 := (is_irreducible_ne_zero h1).1
  rw [degree, if_neg hm] at h
  simp only [Bool.and_self, if_true, Option.some.injEq, Prod.mk.injEq] at h
  exact ⟨h1, h2, hm, h.1.symm, h.2.symm⟩

theorem tables_spec {g m : Nat} {exp log : List Nat} {d : Nat}
    (hdeg : degree m = some d)
    (htab : generate_log_tables g m = some (exp, log)) :
    1 ≤ d ∧
    exp = (List.range (2 ^ d - 1 + 1)).map (gpow g m) ∧
    log.length = 2 ^ d - 1 + 1 ∧
    log[0]? = some 0 ∧
    log[1]? = some (2 ^ d - 1) ∧
    (∀ e, 0 < e → e < 2 ^ d →
      ∃ i, log[e]? = some i ∧ 1 ≤ i ∧ i ≤ 2 ^ d - 1 ∧ gpow g m i = e) ∧
    gpow g m (2 ^ d - 1) = 1 := by
  obtain ⟨h1, h2, hm, hexp, hlog⟩ := generate_log_tables_eq htab
  rw [degree, if_neg hm, Option.some.injEq] at hdeg
  subst hdeg
  have hd1 : 1 ≤ polyDeg m := (is_irreducible_ne_zero h1).2
  obtain ⟨_, Hlt, Hn⟩ := is_generator_spec h2
  have h2d : 2 ≤ 2 ^ polyDeg m := by
    have := Nat.pow_le_pow_right (show 1 ≤ 2 by omega) hd1
    simpa using this
  have hbound : ∀ i, gpow g m i < 2 ^ polyDeg m - 1 + 1 := by
    intro i
    have := @gpow_lt g m hm hd1 i
    omega
  have hg0 : gpow g m 0 = 1 := rfl
  -- exp is the list of successive powers
  have hexp' : exp = (List.range (2 ^ polyDeg m - 1 + 1)).map (gpow g m) := by
    rw [hexp, List.range_eq_range']
    have h := tablesGo_exp g m (2 ^ polyDeg m - 1 + 1) 0 [] (List.replicate (2 ^ polyDeg m - 1 + 1) 0)
    rw [hg0] at h
    rw [h]
    simp
  -- the log table length
  have hlen : log.length = 2 ^ polyDeg m - 1 + 1 := by
    rw [hlog, tablesGo_length]
    simp
  -- pointwise description of the log table
  have hpt : ∀ e, e < 2 ^ polyDeg m - 1 + 1 →
      log[e]? = some (logFoldAux g m e (List.range' 0 (2 ^ polyDeg m - 1 + 1)) 0) := by
    intro e he
    rw [hlog, List.range_eq_range']
    have hrepl : (List.replicate (2 ^ polyDeg m - 1 + 1) (0 : Nat))[e]? = some 0 := by
      rw [List.getElem?_replicate, if_pos he]
    have h := tablesGo_log g m (2 ^ polyDeg m - 1 + 1) hbound (2 ^ polyDeg m - 1 + 1) 0 []
      (List.replicate (2 ^ polyDeg m - 1 + 1) 0) e 0 (by simp) hrepl
    rw [hg0] at h
    exact h
  -- slot 0 is never written
  have hlog0 : log[0]? = some 0 := by
    have hnm : ∀ i ∈ List.range' 0 (2 ^ polyDeg m - 1 + 1), gpow g m i ≠ 0 := by
      intro i hi
      rw [List.mem_range'_1] at hi
      exact gpow_ne_zero Hn (by omega)
    rw [hpt 0 (by omega), logFoldAux_of_not_mem _ hnm]
  -- slot 1 is written at index 0 and overwritten at the final index
  have hsplit1 : List.range' 0 (2 ^ polyDeg m - 1 + 1)
       = List.range' 0 (2 ^ polyDeg m - 1) ++ (2 ^ polyDeg m - 1) :: [] := by
    rw [show 2 ^ polyDeg m - 1 + 1 = 1 + (2 ^ polyDeg m - 1) by omega]
    have h := List.range'_append 0 (2 ^ polyDeg m - 1) 1 1
    simp only [Nat.zero_add, Nat.one_mul] at h
    rw [← h]
    rfl
  have hlog1 : log[1]? = some (2 ^ polyDeg m - 1) := by
    rw [hpt 1 (by omega), hsplit1, logFoldAux_last _ [] Hn (by simp)]
  refine ⟨hd1, hexp', hlen, hlog0, hlog1, ?_, Hn⟩
  intro e he1 he2
  by_cases he_one : e = 1
  · subst he_one
    exact ⟨2 ^ polyDeg m - 1, hlog1, by omega, le_refl _, Hn⟩
  · obtain ⟨i, hi, hie⟩ := gpow_surj hm hd1 Hlt Hn he1 he2
    have hi0 : i ≠ 0 := by
      intro h0
      subst h0
      rw [hg0] at hie
      exact he_one hie.symm
    have hsplit2 : List.range' 0 (2 ^ polyDeg m - 1 + 1)
        = List.range' 0 i ++ i :: List.range' (i + 1) (2 ^ polyDeg m - 1 - i) := by
      rw [show 2 ^ polyDeg m - 1 + 1 = (2 ^ polyDeg m - 1 + 1 - i) + i by omega]
      have h := List.range'_append 0 i (2 ^ polyDeg m - 1 + 1 - i) 1
      simp only [Nat.zero_add, Nat.one_mul] at h
      rw [← h]
      congr 1
      rw [show 2 ^ polyDeg m - 1 + 1 - i = (2 ^ polyDeg m - 1 - i) + 1 by omega, List.range'_succ]
    have hne : ∀ t ∈ List.range' (i + 1) (2 ^ polyDeg m - 1 - i), gpow g m t ≠ e := by
      intro t ht
      rw [List.mem_range'_1] at ht
      intro hte
      by_cases htn : t = 2 ^ polyDeg m - 1
      · rw [htn, Hn] at hte
        exact he_one hte.symm
      · have := gpow_inj Hlt Hn (show i < t by omega) (by omega) (by rw [hie, hte])
        omega
    have hpe := hpt e (by omega)
    rw [hsplit2, logFoldAux_last _ _ hie hne] at hpe
    exact ⟨i, hpe, by omega, by omega, hie⟩

/-! ### Lookups in the generated tables -/

theorem exp_lookup {g m p : Nat} {exp log : List Nat}
    (hdeg : degree m = some p) (htab : generate_log_tables g m = some (exp, log))
    {c : Nat} (hc : c ≤ 2 ^ p - 1) : exp[c]? = some (gpow g m c) := by
  obtain ⟨hd1, hexp, _⟩ := tables_spec hdeg htab
  rw [hexp, List.getElem?_map, List.getElem?_range (by omega)]
  rfl

theorem two_pow_le_16 {p : Nat} (hp16 : p ≤ 16) : 2 ^ p ≤ 65536 := by
  have := Nat.pow_le_pow_right (show 1 ≤ 2 by omega) hp16
  have h16 : (2 : Nat) ^ 16 = 65536 := by norm_num
  omega

theorem ariBound_large {p i j : Nat} (hp16 : p ≤ 16)
    (hi : i ≤ 2 ^ p - 1) (hj : j ≤ 2 ^ p - 1) : i + j < ariBound p := by
  unfold ariBound
  by_cases hp8 : p ≤ 8
  · have hpow : (2 : Nat) ^ p ≤ 256 := by
      have := Nat.pow_le_pow_right (show 1 ≤ 2 by omega) hp8
      have h8 : (2 : Nat) ^ 8 = 256 := by norm_num
      omega
    rw [if_pos hp8]
    have h16 : (2 : Nat) ^ 16 = 65536 := by norm_num
    omega
  · have hpow := two_pow_le_16 hp16
    rw [if_neg hp8]
    have h32 : (2 : Nat) ^ 32 = 4294967296 := by norm_num
    omega

theorem fmul_pos_eq {g m p : Nat} {exp log : List Nat} {a b i j : Nat}
    (hdeg : degree m = some p) (htab : generate_log_tables g m = some (exp, log))
    (hp16 : p ≤ 16) (ha0 : a ≠ 0) (hb0 : b ≠ 0)
    (hia : log[a]? = some i) (hjb : log[b]? = some j)
    (hi : i ≤ 2 ^ p - 1) (hj : j ≤ 2 ^ p - 1) :
    fmul p exp log a b
      = .ok (gpow g m (if i + j > 2 ^ p - 1 then i + j - (2 ^ p - 1) else i + j)) := by
  unfold fmul
  rw [if_neg (by simp [ha0, hb0])]
  simp only [hia, hjb]
  rw [if_neg (by have := ariBound_large hp16 hi hj; omega)]
  by_cases hcc : i + j > 2 ^ p - 1
  · rw [if_pos hcc, exp_lookup hdeg htab (by omega)]
  · rw [if_neg hcc, exp_lookup hdeg htab (by omega)]

theorem fmul_total {g m p : Nat} {exp log : List Nat} {a b : Nat}
    (hdeg : degree m = some p) (htab : generate_log_tables g m = some (exp, log))
    (hp16 : p ≤ 16) (ha : a < 2 ^ p) (hb : b < 2 ^ p) :
    ∃ v, fmul p exp log a b = .ok v := by
  obtain ⟨hd1, hexp, hlen, hlog0, hlog1, hloge, hgn⟩ := tables_spec hdeg htab
  by_cases hab : a = 0 ∨ b = 0
  · refine ⟨0, ?_⟩
    unfold fmul
    rw [if_pos (by rcases hab with h | h <;> simp [h])]
  push_neg at hab
  obtain ⟨i, hia, hi1, hin, _⟩ := hloge a (Nat.pos_of_ne_zero hab.1) ha
  obtain ⟨j, hjb, hj1, hjn, _⟩ := hloge b (Nat.pos_of_ne_zero hab.2) hb
  exact ⟨_, fmul_pos_eq hdeg htab hp16 hab.1 hab.2 hia hjb hin hjn⟩

theorem fdiv_spec {g m p : Nat} {exp log : List Nat} {a b : Nat}
    (hdeg : degree m = some p) (htab : generate_log_tables g m = some (exp, log))
    (hp16 : p ≤ 16) (ha : a < 2 ^ p) (hb : b < 2 ^ p) :
    (b = 0 → fdiv p exp log a b = .err .divByZero)
    ∧ (b ≠ 0 → ∃ v, fdiv p exp log a b = .ok v) := by
  obtain ⟨hd1, hexp, hlen, hlog0, hlog1, hloge, hgn⟩ := tables_spec hdeg htab
  constructor
  · intro hb0
    unfold fdiv
    rw [if_pos hb0]
  · intro hb0
    have hilook : ∃ i, log[a]? = some i ∧ i ≤ 2 ^ p - 1 := by
      by_cases ha0 : a = 0
      · exact ⟨0, by rw [ha0]; exact hlog0, by omega⟩
      · obtain ⟨i, hia, _, hin, _⟩ := hloge a (Nat.pos_of_ne_zero ha0) ha
        exact ⟨i, hia, hin⟩
    obtain ⟨i, hia, hin⟩ := hilook
    obtain ⟨j, hjb, hj1, hjn, _⟩ := hloge b (Nat.pos_of_ne_zero hb0) hb
    refine ⟨gpow g m (if 2 ^ p - 1 + i - j > 2 ^ p - 1
      then 2 ^ p - 1 + i - j - (2 ^ p - 1) else 2 ^ p - 1 + i - j), ?_⟩
    unfold fdiv
    rw [if_neg hb0]
    simp only [hia, hjb]
    rw [if_neg (by have := ariBound_large hp16 (le_refl (2 ^ p - 1)) hin; omega)]
    rw [if_neg (by omega)]
    by_cases hcc : 2 ^ p - 1 + i - j > 2 ^ p - 1
    · rw [if_pos hcc, exp_lookup hdeg htab (by omega)]
    · rw [if_neg hcc, exp_lookup hdeg htab (by omega)]


/-! ### Bit-level parity and halving of XOR -/

theorem xor_mod_two (a b : Nat) : (a ^^^ b) % 2 = a % 2 ^^^ b % 2 := by
  have h := Nat.testBit_xor a b 0
  rw [Nat.testBit_zero, Nat.testBit_zero, Nat.testBit_zero] at h
  rcases Nat.mod_two_eq_zero_or_one a with ha | ha <;>
    rcases Nat.mod_two_eq_zero_or_one b with hb | hb <;>
    rcases Nat.mod_two_eq_zero_or_one (a ^^^ b) with hab | hab <;>
    rw [ha, hb, hab] at h ⊢ <;> simp_all

theorem xor_div_two (a b : Nat) : (a ^^^ b) / 2 = a / 2 ^^^ b / 2 := by
  apply Nat.eq_of_testBit_eq
  intro i
  rw [Nat.testBit_div_two, Nat.testBit_xor, Nat.testBit_xor,
    Nat.testBit_div_two, Nat.testBit_div_two]

/-! ### Basic properties of `decode` -/

theorem decode_zero : decode 0 = 0 := by
  rw [decode]
  rfl

theorem decode_eq_of_ne_zero {n : Nat} (h : n ≠ 0) :
    decode n = Polynomial.C ((n % 2 : Nat) : ZMod 2) + Polynomial.X * decode (n / 2) := by
  rw [decode, dif_neg h]

theorem decode_one : decode 1 = Polynomial.C 1 := by
  rw [decode_eq_of_ne_zero (by omega)]
  norm_num [decode_zero]

theorem decode_two_mul (t : Nat) : decode (2 * t) = Polynomial.X * decode t := by
  by_cases ht : t = 0
  · subst ht
    rw [show 2 * 0 = 0 by omega, decode_zero, mul_zero]
  · rw [decode_eq_of_ne_zero (by omega)]
    rw [show 2 * t % 2 = 0 by omega, show 2 * t / 2 = t by omega]
    norm_num

theorem decode_mul_two_pow (m : Nat) : ∀ s : Nat, decode (m * 2 ^ s) = decode m * Polynomial.X ^ s := by
  intro s
  induction s with
  | zero => simp
  | succ s ih =>
    rw [show m * 2 ^ (s + 1) = 2 * (m * 2 ^ s) by ring, decode_two_mul, ih]
    ring

theorem decode_two_pow (s : Nat) : decode (2 ^ s) = Polynomial.X ^ s := by
  have := decode_mul_two_pow 1 s
  rw [one_mul, decode_one, Polynomial.C_1, one_mul] at this
  exact this

theorem decode_xor : ∀ a b : Nat, decode (a ^^^ b) = decode a + decode b := by
  intro a
  induction a using Nat.strong_induction_on with
  | _ a ih =>
    intro b
    by_cases ha : a = 0
    · subst ha
      rw [Nat.zero_xor, decode_zero, zero_add]
    by_cases hb : b = 0
    · subst hb
      rw [Nat.xor_zero, decode_zero, add_zero]
    by_cases hab : a ^^^ b = 0
    · have : a = b := Nat.xor_eq_zero.mp hab
      subst this
      rw [hab, decode_zero, CharTwo.add_self_eq_zero]
    rw [decode_eq_of_ne_zero hab, decode_eq_of_ne_zero ha, decode_eq_of_ne_zero hb]
    rw [xor_div_two, ih (a / 2) (by omega) (b / 2)]
    have hC : Polynomial.C (((a ^^^ b) % 2 : Nat) : ZMod 2)
        = Polynomial.C ((a % 2 : Nat) : ZMod 2) + Polynomial.C ((b % 2 : Nat) : ZMod 2) := by
      rw [← Polynomial.C_add]
      congr 1
      rw [xor_mod_two]
      rcases Nat.mod_two_eq_zero_or_one a with ha2 | ha2 <;>
        rcases Nat.mod_two_eq_zero_or_one b with hb2 | hb2 <;>
        rw [ha2, hb2] <;> decide
    rw [hC]
    ring

theorem decode_nonzero_deg : ∀ n : Nat, n ≠ 0 →
    decode n ≠ 0 ∧ (decode n).natDegree = polyDeg n := by
  intro n
  induction n using Nat.strong_induction_on with
  | _ n ih =>
    intro hn
    by_cases h1 : n = 1
    · subst h1
      rw [decode_one]
      refine ⟨Polynomial.C_ne_zero.mpr one_ne_zero, ?_⟩
      rw [Polynomial.natDegree_C]
      decide
    have h2 : 2 ≤ n := by omega
    obtain ⟨hq, hqdeg⟩ := ih (n / 2) (by omega) (by omega)
    rw [decode_eq_of_ne_zero hn]
    have hXq : (Polynomial.X * decode (n / 2) : Polynomial (ZMod 2)) ≠ 0 :=
      mul_ne_zero Polynomial.X_ne_zero hq
    have hXqdeg : (Polynomial.X * decode (n / 2)).natDegree = 1 + polyDeg (n / 2) := by
      rw [Polynomial.natDegree_mul Polynomial.X_ne_zero hq, Polynomial.natDegree_X, hqdeg]
    have hCdeg : (Polynomial.C ((n % 2 : Nat) : ZMod 2)).natDegree
        < (Polynomial.X * decode (n / 2)).natDegree := by
      rw [Polynomial.natDegree_C, hXqdeg]
      omega
    have hsumdeg := Polynomial.natDegree_add_eq_right_of_natDegree_lt hCdeg
    constructor
    · intro h0
      rw [h0, Polynomial.natDegree_zero] at hsumdeg
      rw [hXqdeg] at hsumdeg
      omega
    · rw [hsumdeg, hXqdeg, polyDeg_eq_succ n h2]
      omega

/-! ### The remainder loop respects polynomial divisibility -/

theorem decode_dvd_add_polyMod : ∀ a f : Nat, f ≠ 0 →
    decode f ∣ (decode a + decode (polyMod a f)) := by
  intro a
  induction a using Nat.strong_induction_on with
  | _ a ih =>
    intro f hf
    rw [polyMod_eq]
    by_cases ha : a = 0
    · rw [if_pos ha, ha, decode_zero, add_zero]
      exact dvd_zero _
    rw [if_neg ha, if_neg hf]
    by_cases hd : polyDeg a < polyDeg f
    · rw [if_pos hd, CharTwo.add_self_eq_zero]
      exact dvd_zero _
    rw [if_neg hd]
    have hlt : a ^^^ f * 2 ^ (polyDeg a - polyDeg f) < a :=
      lt_of_lt_of_le (reduce_step_lt ha hf (by omega)) (two_pow_polyDeg_le a (by omega))
    have IH := ih _ hlt f hf
    have hdec : decode (a ^^^ f * 2 ^ (polyDeg a - polyDeg f))
        = decode a + decode f * Polynomial.X ^ (polyDeg a - polyDeg f) := by
      rw [decode_xor, decode_mul_two_pow]
    rw [hdec] at IH
    have hself := CharTwo.add_self_eq_zero
      (decode f * Polynomial.X ^ (polyDeg a - polyDeg f))
    have hre : decode a + decode (polyMod (a ^^^ f * 2 ^ (polyDeg a - polyDeg f)) f)
        = (decode a + decode f * Polynomial.X ^ (polyDeg a - polyDeg f)
            + decode (polyMod (a ^^^ f * 2 ^ (polyDeg a - polyDeg f)) f))
          + decode f * Polynomial.X ^ (polyDeg a - polyDeg f) := by
      calc decode a + decode (polyMod (a ^^^ f * 2 ^ (polyDeg a - polyDeg f)) f)
          = decode a + decode (polyMod (a ^^^ f * 2 ^ (polyDeg a - polyDeg f)) f)
            + (decode f * Polynomial.X ^ (polyDeg a - polyDeg f)
              + decode f * Polynomial.X ^ (polyDeg a - polyDeg f)) := by rw [hself, add_zero]
        _ = _ := by ring
    rw [hre]
    exact dvd_add IH (dvd_mul_right _ _)

theorem decode_dvd_of_polyMod_eq_zero {a f : Nat} (hf : f ≠ 0)
    (h : polyMod a f = 0) : decode f ∣ decode a := by
  have hdvd := decode_dvd_add_polyMod a f hf
  rw [h, decode_zero, add_zero] at hdvd
  exact hdvd

/-! ### Surjectivity of `decode` -/

theorem decode_surj : ∀ (d : Nat) (F : Polynomial (ZMod 2)), F.natDegree ≤ d →
    ∃ n, decode n = F := by
  intro d
  induction d with
  | zero =>
    intro F hF
    have h0 : F.natDegree = 0 := by omega
    obtain ⟨c, rfl⟩ := Polynomial.natDegree_eq_zero.mp h0
    rcases (by decide : ∀ x : ZMod 2, x = 0 ∨ x = 1) c with hc | hc
    · exact ⟨0, by rw [decode_zero, hc, map_zero]⟩
    · exact ⟨1, by rw [decode_one, hc]⟩
  | succ d ihd =>
    intro F hF
    by_cases hdeg : F.natDegree ≤ d
    · exact ihd F hdeg
    obtain ⟨q, hq⟩ := ihd F.divX
      (by rw [Polynomial.natDegree_divX_eq_natDegree_tsub_one]; omega)
    have hqz : q ≠ 0 := by
      intro h0
      rw [h0, decode_zero] at hq
      have := Polynomial.divX_mul_X_add F
      rw [← hq, zero_mul, zero_add] at this
      rw [← this, Polynomial.natDegree_C] at hdeg
      omega
    have hc2 : (F.coeff 0).val < 2 := ZMod.val_lt _
    refine ⟨2 * q + (F.coeff 0).val, ?_⟩
    rw [decode_eq_of_ne_zero (by omega)]
    rw [show (2 * q + (F.coeff 0).val) % 2 = (F.coeff 0).val by omega]
    rw [show (2 * q + (F.coeff 0).val) / 2 = q by omega]
    rw [hq, ZMod.natCast_rightInverse _]
    have := Polynomial.divX_mul_X_add F
    calc Polynomial.C (F.coeff 0) + Polynomial.X * F.divX
        = F.divX * Polynomial.X + Polynomial.C (F.coeff 0) := by ring
      _ = F := Polynomial.divX_mul_X_add F

/-! ### Existence of an irreducible polynomial of each positive degree -/

theorem exists_irreducible_natDegree (p : Nat) (hp : p ≠ 0) :
    ∃ F : Polynomial (ZMod 2), Irreducible F ∧ F.natDegree = p := by
  haveI : Fact (Nat.Prime 2) := ⟨Nat.prime_two⟩
  obtain ⟨α, hα⟩ := Field.exists_primitive_element_of_finite_bot (ZMod 2) (GaloisField 2 p)
  have hint : IsIntegral (ZMod 2) α := IsIntegral.of_finite (ZMod 2) α
  refine ⟨minpoly (ZMod 2) α, minpoly.irreducible hint, ?_⟩
  have h1 := IntermediateField.adjoin.finrank hint
  rw [hα, IntermediateField.finrank_top', GaloisField.finrank 2 hp] at h1
  exact h1.symm

theorem is_irreducible_true_of_irreducible {F : Polynomial (ZMod 2)} {n : Nat}
    (hF : Irreducible F) (hn : decode n = F) (hn0 : n ≠ 0) (hd1 : 1 ≤ polyDeg n) :
    is_irreducible n = true := by
  have hunf : is_irreducible n = (if polyDeg n = 0 then false
      else (List.range (2 ^ (polyDeg n / 2 + 1))).all
        fun f => decide (f < 2) || polyMod n f != 0) := by
    unfold is_irreducible
    rw [degree, if_neg hn0]
  rw [hunf, if_neg (by omega : ¬ polyDeg n = 0), List.all_eq_true]
  intro f hf
  rw [List.mem_range] at hf
  by_cases hf2 : f < 2
  · simp [hf2]
  simp only [Bool.or_eq_true, bne_iff_ne, ne_eq, decide_eq_true_eq]
  right
  intro hmod
  have hfne : f ≠ 0 := by omega
  have hdvd := decode_dvd_of_polyMod_eq_zero hfne hmod
  obtain ⟨hfz, hfdeg⟩ := decode_nonzero_deg f hfne
  obtain ⟨hnz, hndeg⟩ := decode_nonzero_deg n hn0
  have hfd_low : 1 ≤ polyDeg f := by
    by_contra hcon
    push_neg at hcon
    have hb := lt_two_pow_polyDeg_succ f
    have h0 : polyDeg f = 0 := by omega
    rw [h0] at hb
    norm_num at hb
    omega
  have hfd_high : polyDeg f ≤ polyDeg n / 2 := by
    have hlow := two_pow_polyDeg_le f (by omega)
    have := (Nat.pow_lt_pow_iff_right (a := 2) (by omega)).mp (lt_of_le_of_lt hlow hf)
    omega
  obtain ⟨c, hc⟩ := hdvd
  rw [hn] at hc
  rcases hF.isUnit_or_isUnit hc with hu | hu
  · have hz := Polynomial.natDegree_eq_zero_of_isUnit hu
    rw [hfdeg] at hz
    omega
  · have hcne : c ≠ 0 := by
      intro h0
      rw [h0, mul_zero] at hc
      exact hF.ne_zero hc
    have hdegmul : F.natDegree = (decode f).natDegree + c.natDegree := by
      rw [hc]
      exact Polynomial.natDegree_mul hfz hcne
    have hc0 := Polynomial.natDegree_eq_zero_of_isUnit hu
    rw [hfdeg, hc0] at hdegmul
    have hFd : F.natDegree = polyDeg n := by rw [← hn, hndeg]
    omega

theorem exists_irreducible_in_range (p : Nat) (hp1 : 1 ≤ p) :
    ∃ n, 2 ^ p + 1 ≤ n ∧ n < 2 ^ (p + 1) ∧ is_irreducible n = true := by
  by_cases hp_one : p = 1
  · subst hp_one
    exact ⟨3, by norm_num, by norm_num, by decide⟩
  have hp2 : 2 ≤ p := by omega
  obtain ⟨F, hF, hFdeg⟩ := exists_irreducible_natDegree p (by omega)
  obtain ⟨n, hn⟩ := decode_surj F.natDegree F (le_refl _)
  have hn0 : n ≠ 0 := by
    intro h0
    rw [h0, decode_zero] at hn
    exact hF.ne_zero hn.symm
  obtain ⟨hnz, hndeg⟩ := decode_nonzero_deg n hn0
  have hpdeg : polyDeg n = p := by rw [← hndeg, hn, hFdeg]
  have hlow := two_pow_polyDeg_le n (by omega)
  have hhigh := lt_two_pow_polyDeg_succ n
  rw [hpdeg] at hlow hhigh
  have hne_pow : n ≠ 2 ^ p := by
    intro h0
    have hXp : F = Polynomial.X ^ p := by rw [← hn, h0, decode_two_pow]
    have hsplit : (Polynomial.X : Polynomial (ZMod 2)) ^ p
        = Polynomial.X * Polynomial.X ^ (p - 1) := by
      rw [← pow_succ']
      congr 1
      omega
    rcases hF.isUnit_or_isUnit (hXp.trans hsplit) with hu | hu
    · have hz := Polynomial.natDegree_eq_zero_of_isUnit hu
      rw [Polynomial.natDegree_X] at hz
      omega
    · have hz := Polynomial.natDegree_eq_zero_of_isUnit hu
      rw [Polynomial.natDegree_pow, Polynomial.natDegree_X, mul_one] at hz
      omega
  exact ⟨n, by omega, hhigh, is_irreducible_true_of_irreducible hF hn hn0 (by omega)⟩

/-! ### The first match of an increasing scan is the least match -/

theorem find_least_range' (P : Nat → Bool) :
    ∀ (len s x : Nat), s ≤ x → x < s + len → P x = true →
    ∃ m, (List.range' s len).find? P = some m ∧ P m = true ∧ s ≤ m ∧ m < s + len
      ∧ ∀ y, s ≤ y → y < s + len → P y = true → m ≤ y := by
  intro len
  induction len with
  | zero =>
    intro s x h1 h2 _
    omega
  | succ len ih =>
    intro s x h1 h2 hP
    rw [List.range'_succ]
    by_cases hs : P s = true
    · refine ⟨s, ?_, hs, le_refl _, by omega, fun y hy _ _ => hy⟩
      rw [List.find?_cons, hs]
    · have hxs : x ≠ s := fun h => hs (h ▸ hP)
      obtain ⟨m, hfind, hPm, hm1, hm2, hmin⟩ := ih (s + 1) x (by omega) (by omega) hP
      refine ⟨m, ?_, hPm, by omega, by omega, ?_⟩
      · rw [List.find?_cons]
        rw [Bool.not_eq_true] at hs
        rw [hs]
        exact hfind
      · intro y hy1 hy2 hPy
        by_cases hys : y = s
        · exact absurd (hys ▸ hPy) hs
        · exact hmin y (by omega) (by omega) hPy

/-! ### Claim theorems -/

/-- C4: for every generated field (degree `p` in `1..=16`, any modulus and
generator pair accepted by `generate_log_tables`), the tables satisfy
`exp_table[log_table[e]] = e` for every nonzero `e < 2^p`,
`exp_table[0] = 1`, and `exp_table[2^p - 1] = exp_table[0]` (periodicity
with period `2^p - 1`). -/
theorem claim_C4_table_invariants {g m p : Nat} {exp log : List Nat}
    (hp1 : 1 ≤ p) (hp16 : p ≤ 16)
    (hdeg : degree m = some p)
    (htab : generate_log_tables g m = some (exp, log)) :
    (∀ e, 0 < e → e < 2 ^ p → ∃ i, log[e]? = some i ∧ exp[i]? = some e)
    ∧ exp[0]? = some 1 ∧ exp[2 ^ p - 1]? = exp[0]? := by
  obtain ⟨hd1, hexp, hlen, hlog0, hlog1, hloge, hgn⟩ := tables_spec hdeg htab
  refine ⟨?_, ?_, ?_⟩
  · intro e he1 he2
    obtain ⟨i, hei, hi1, hin, hgi⟩ := hloge e he1 he2
    refine ⟨i, hei, ?_⟩
    rw [exp_lookup hdeg htab hin, hgi]
  · rw [exp_lookup hdeg htab (by omega)]
    rfl
  · rw [exp_lookup hdeg htab (le_refl _), exp_lookup hdeg htab (by omega)]
    rw [hgn]
    rfl

/-- Witness for C4 at the GF16 example field. -/
theorem claim_C4_witness :
    (1 ≤ 4 ∧ (4 : Nat) ≤ 16 ∧ degree 19 = some 4
      ∧ generate_log_tables 2 19 = some (gf16Exp, gf16Log))
    ∧ ((∀ e, 0 < e → e < 2 ^ 4 → ∃ i, gf16Log[e]? = some i ∧ gf16Exp[i]? = some e)
      ∧ gf16Exp[0]? = some 1 ∧ gf16Exp[2 ^ 4 - 1]? = gf16Exp[0]?) :=
  ⟨by decide,
    claim_C4_table_invariants (show (1 : Nat) ≤ 4 by norm_num)
      (show (4 : Nat) ≤ 16 by norm_num)
      (show degree 19 = some 4 by decide)
      (show generate_log_tables 2 19 = some (gf16Exp, gf16Log) by decide)⟩

/-- C9: in the tables built by `generate_log_tables` for a field of degree
`p`, the log of the multiplicative identity `1` is `2^p - 1` and not `0`:
the final loop iteration, where the running power wraps back to `1`,
overwrites the entry written for index 0. -/
theorem claim_C9_log_of_one {g m p : Nat} {exp log : List Nat}
    (hdeg : degree m = some p)
    (htab : generate_log_tables g m = some (exp, log)) :
    log[1]? = some (2 ^ p - 1) ∧ 2 ^ p - 1 ≠ 0 := by
  obtain ⟨hd1, _, _, _, hlog1, _, _⟩ := tables_spec hdeg htab
  have h2d : 2 ≤ 2 ^ p := by
    have := Nat.pow_le_pow_right (show 1 ≤ 2 by omega) hd1
    simpa using this
  exact ⟨hlog1, by omega⟩

/-- Witness for C9 at the GF16 example field: `LOG_TABLE[1] = 15`. -/
theorem claim_C9_witness :
    (degree 19 = some 4 ∧ generate_log_tables 2 19 = some (gf16Exp, gf16Log))
    ∧ (gf16Log[1]? = some (2 ^ 4 - 1) ∧ 2 ^ 4 - 1 ≠ 0) :=
  ⟨by decide,
    claim_C9_log_of_one (show degree 19 = some 4 by decide)
      (show generate_log_tables 2 19 = some (gf16Exp, gf16Log) by decide)⟩

/-- C3: in every generated field, `div` fails with the division-by-zero
condition exactly when the divisor is zero (and succeeds otherwise, for
every dividend including zero), while `mul` always succeeds and `add`/`sub`
are total XOR operations that cannot fail. -/
theorem claim_C3_error_conditions {g m p : Nat} {exp log : List Nat} {a b : Nat}
    (hp1 : 1 ≤ p) (hp16 : p ≤ 16)
    (hdeg : degree m = some p)
    (htab : generate_log_tables g m = some (exp, log))
    (ha : a < 2 ^ p) (hb : b < 2 ^ p) :
    (fdiv p exp log a b = .err .divByZero ↔ b = 0)
    ∧ (b ≠ 0 → ∃ v, fdiv p exp log a b = .ok v)
    ∧ (∃ v, fmul p exp log a b = .ok v)
    ∧ fadd a b = a ^^^ b ∧ fsub a b = a ^^^ b := by
  obtain ⟨hzero, hpos⟩ := fdiv_spec hdeg htab hp16 ha hb
  refine ⟨⟨?_, hzero⟩, hpos, fmul_total hdeg htab hp16 ha hb, rfl, rfl⟩
  intro herr
  by_contra hb0
  obtain ⟨v, hv⟩ := hpos hb0
  rw [hv] at herr
  exact OpResult.noConfusion herr

/-- Witness for C3 at the GF16 example field with `a = 5`, `b = 7`. -/
theorem claim_C3_witness :
    (1 ≤ 4 ∧ (4 : Nat) ≤ 16 ∧ degree 19 = some 4
      ∧ generate_log_tables 2 19 = some (gf16Exp, gf16Log)
      ∧ 5 < 2 ^ 4 ∧ 7 < 2 ^ 4)
    ∧ ((fdiv 4 gf16Exp gf16Log 5 7 = .err .divByZero ↔ (7 : Nat) = 0)
      ∧ ((7 : Nat) ≠ 0 → ∃ v, fdiv 4 gf16Exp gf16Log 5 7 = .ok v)
      ∧ (∃ v, fmul 4 gf16Exp gf16Log 5 7 = .ok v)
      ∧ fadd 5 7 = 5 ^^^ 7 ∧ fsub 5 7 = 5 ^^^ 7) :=
  ⟨by decide,
    claim_C3_error_conditions (show (1 : Nat) ≤ 4 by norm_num)
      (show (4 : Nat) ≤ 16 by norm_num)
      (show degree 19 = some 4 by decide)
      (show generate_log_tables 2 19 = some (gf16Exp, gf16Log) by decide)
      (show (5 : Nat) < 2 ^ 4 by norm_num)
      (show (7 : Nat) < 2 ^ 4 by norm_num)⟩

/-- C10: in every generated field, for field elements `a, b < 2^p`, the
generated `mul` never panics at all, and the only panic `div` can raise is
the division-by-zero one, which happens exactly at `b = 0`; in particular
no table access is out of bounds and the accumulator arithmetic never
overflows or underflows. -/
theorem claim_C10_safety {g m p : Nat} {exp log : List Nat} {a b : Nat}
    (hp1 : 1 ≤ p) (hp16 : p ≤ 16)
    (hdeg : degree m = some p)
    (htab : generate_log_tables g m = some (exp, log))
    (ha : a < 2 ^ p) (hb : b < 2 ^ p) :
    (∀ e, fmul p exp log a b ≠ .err e)
    ∧ (∀ e, fdiv p exp log a b = .err e → e = .divByZero ∧ b = 0) := by
  obtain ⟨hzero, hpos⟩ := fdiv_spec hdeg htab hp16 ha hb
  constructor
  · intro e he
    obtain ⟨v, hv⟩ := fmul_total hdeg htab hp16 ha hb
    rw [hv] at he
    exact OpResult.noConfusion he
  · intro e he
    by_cases hb0 : b = 0
    · have h := hzero hb0
      rw [h] at he
      injection he with h2
      exact ⟨h2.symm, hb0⟩
    · obtain ⟨v, hv⟩ := hpos hb0
      rw [hv] at he
      exact OpResult.noConfusion he

/-- Witness for C10 at the GF16 example field with `a = 0`, `b = 7`. -/
theorem claim_C10_witness :
    (1 ≤ 4 ∧ (4 : Nat) ≤ 16 ∧ degree 19 = some 4
      ∧ generate_log_tables 2 19 = some (gf16Exp, gf16Log)
      ∧ 0 < 2 ^ 4 ∧ 7 < 2 ^ 4)
    ∧ ((∀ e, fmul 4 gf16Exp gf16Log 0 7 ≠ .err e)
      ∧ (∀ e, fdiv 4 gf16Exp gf16Log 0 7 = .err e → e = .divByZero ∧ (7 : Nat) = 0)) :=
  ⟨by decide,
    claim_C10_safety (show (1 : Nat) ≤ 4 by norm_num)
      (show (4 : Nat) ≤ 16 by norm_num)
      (show degree 19 = some 4 by decide)
      (show generate_log_tables 2 19 = some (gf16Exp, gf16Log) by decide)
      (show (0 : Nat) < 2 ^ 4 by norm_num)
      (show (7 : Nat) < 2 ^ 4 by norm_num)⟩

/-- C5: in every generated field, `mul(a, 1) = a` and `add(a, 0) = a`. -/
theorem claim_C5_identities {g m p : Nat} {exp log : List Nat} {a : Nat}
    (hp1 : 1 ≤ p) (hp16 : p ≤ 16)
    (hdeg : degree m = some p)
    (htab : generate_log_tables g m = some (exp, log))
    (ha : a < 2 ^ p) :
    fmul p exp log a 1 = .ok a ∧ fadd a 0 = a := by
  obtain ⟨hd1, hexp, hlen, hlog0, hlog1, hloge, hgn⟩ := tables_spec hdeg htab
  constructor
  · by_cases ha0 : a = 0
    · subst ha0
      unfold fmul
      rw [if_pos (by simp)]
    · obtain ⟨i, hia, hi1, hin, hgi⟩ := hloge a (Nat.pos_of_ne_zero ha0) ha
      have h := fmul_pos_eq hdeg htab hp16 ha0 (by omega) hia hlog1 hin (le_refl _)
      rw [h, if_pos (by omega), show i + (2 ^ p - 1) - (2 ^ p - 1) = i by omega, hgi]
  · exact Nat.xor_zero a

/-- Witness for C5 at the GF16 example field with `a = 5`. -/
theorem claim_C5_witness :
    (1 ≤ 4 ∧ (4 : Nat) ≤ 16 ∧ degree 19 = some 4
      ∧ generate_log_tables 2 19 = some (gf16Exp, gf16Log) ∧ 5 < 2 ^ 4)
    ∧ (fmul 4 gf16Exp gf16Log 5 1 = .ok 5 ∧ fadd 5 0 = 5) :=
  ⟨by decide,
    claim_C5_identities (show (1 : Nat) ≤ 4 by norm_num)
      (show (4 : Nat) ≤ 16 by norm_num)
      (show degree 19 = some 4 by decide)
      (show generate_log_tables 2 19 = some (gf16Exp, gf16Log) by decide)
      (show (5 : Nat) < 2 ^ 4 by norm_num)⟩

/-- C6: the concrete GF16 scenario (`p = 4`, modulus `0b10011`, generator
`0b10`): `5 + 7 = 2`, `5 - 7 = 2`, `5 * 4 = 7`, `5 / 7 = 1 / 4`, and
`4 / 4 = 1`. -/
theorem claim_C6_gf16_scenario :
    generate_log_tables 2 19 = some (gf16Exp, gf16Log)
    ∧ fadd 5 7 = 2 ∧ fsub 5 7 = 2
    ∧ fmul 4 gf16Exp gf16Log 5 4 = .ok 7
    ∧ fdiv 4 gf16Exp gf16Log 5 7 = fdiv 4 gf16Exp gf16Log 1 4
    ∧ fdiv 4 gf16Exp gf16Log 4 4 = .ok 1 := by decide

/-- C1 (code bug): the generated `div` has no degenerate-case check for a
zero dividend; since `LOG_TABLE[0] = 0`, dividing the zero element by a
nonzero `b` returns `EXP_TABLE[(2^p - 1) - log b]`, the multiplicative
inverse of `b`, not `0`.  In GF16, `0 / 2` evaluates to `9 = 2⁻¹`. -/
theorem claim_C1_zero_dividend_bug :
    generate_log_tables 2 19 = some (gf16Exp, gf16Log)
    ∧ fdiv 4 gf16Exp gf16Log 0 2 = .ok 9
    ∧ (9 : Nat) ≠ 0 := by decide

/-- C2 (code bug): the field law `div(mul(a, b), b) = a` fails at `a = 0`:
in GF16, `mul(0, 2) = 0` but `div(0, 2) = 9 ≠ 0`, because `div` lacks the
zero-dividend case. -/
theorem claim_C2_roundtrip_bug :
    generate_log_tables 2 19 = some (gf16Exp, gf16Log)
    ∧ fmul 4 gf16Exp gf16Log 0 2 = .ok 0
    ∧ fdiv 4 gf16Exp gf16Log 0 2 = .ok 9
    ∧ (9 : Nat) ≠ 0 := by decide

/-- C8 counterexample: the value `0b100011011 = 283` named by the claim is
in fact irreducible (it is the AES modulus), so supplying it as an explicit
modulus is not rejected by the irreducibility check. -/
theorem claim_C8_counterexample :
    is_irreducible 283 = true
    ∧ from_input 8 (some 283) (some 3) ≠ SettingsOutcome.modulusNotIrreducible := by
  refine ⟨by decide, ?_⟩
  intro h
  have h1 : is_irreducible 283 = true := by decide
  unfold from_input at h
  simp only [h1, Bool.not_true, Bool.false_eq_true, if_false] at h
  cases hgen : is_generator 3 283 <;> rw [hgen] at h <;> simp at h

/-- C8 (amended): whenever an explicitly supplied modulus is not
irreducible, `Settings::from_input` rejects it at definition time with the
modulus-not-irreducible error, before the generator is even considered;
(the spec example `0b100011011` is not such a modulus — it is irreducible,
and the crate test that uses it panics on the generator check instead — a
genuinely reducible degree-8 example is `0b100011010 = 282`). -/
theorem claim_C8_amended {p m : Nat} (ogen : Option Nat)
    (h : is_irreducible m = false) :
    from_input p (some m) ogen = SettingsOutcome.modulusNotIrreducible := by
  unfold from_input
  simp only [h, Bool.not_false, if_true]

/-- Witness for the amended C8 with the reducible modulus `282`. -/
theorem claim_C8_witness :
    is_irreducible 282 = false
    ∧ from_input 8 (some 282) none = SettingsOutcome.modulusNotIrreducible :=
  ⟨by decide, claim_C8_amended none (show is_irreducible 282 = false by decide)⟩



/-- C7: for every `p` in `[1, 63)`, `find_modulus_poly p` returns a value,
and that value is the smallest integer in `[2^p + 1, 2^(p+1))` whose
polynomial is irreducible — the first match of the increasing scan. -/
theorem claim_C7_find_modulus_poly {p : Nat} (hp1 : 1 ≤ p) (hp63 : p < 63) :
    ∃ m, find_modulus_poly p = some m
      ∧ 2 ^ p + 1 ≤ m ∧ m < 2 ^ (p + 1) ∧ is_irreducible m = true
      ∧ ∀ x, 2 ^ p + 1 ≤ x → x < 2 ^ (p + 1) → is_irreducible x = true → m ≤ x := by
  obtain ⟨n, hn1, hn2, hirr⟩ := exists_irreducible_in_range p hp1
  have hpow : 2 ^ (p + 1) = 2 ^ p + 2 ^ p := by
    rw [pow_succ]
    omega
  have hpos : 1 ≤ 2 ^ p := Nat.one_le_two_pow
  obtain ⟨m, hfind, hPm, hm1, hm2, hmin⟩ :=
    find_least_range' (fun x => is_irreducible x) (2 ^ p - 1) (2 ^ p + 1) n
      (by omega) (by omega) hirr
  exact ⟨m, hfind, hm1, by omega, hPm,
    fun x hx1 hx2 hx3 => hmin x hx1 (by omega) hx3⟩

/-- Witness for C7 at `p = 3`: the scan over `[9, 16)` returns `11`. -/
theorem claim_C7_witness :
    ((1 : Nat) ≤ 3 ∧ (3 : Nat) < 63)
    ∧ (∃ m, find_modulus_poly 3 = some m
      ∧ 2 ^ 3 + 1 ≤ m ∧ m < 2 ^ (3 + 1) ∧ is_irreducible m = true
      ∧ ∀ x, 2 ^ 3 + 1 ≤ x → x < 2 ^ (3 + 1) → is_irreducible x = true → m ≤ x) :=
  ⟨by norm_num,
    claim_C7_find_modulus_poly (show (1 : Nat) ≤ 3 by norm_num)
      (show (3 : Nat) < 63 by norm_num)⟩


end G2p
